import Mathlib

/-!
Verification development for the aya-log core: the TLV encoding engine
(aya-log-common) and the format-string template parser (aya-log-parser),
shallowly embedded from the Rust sources.

Conventions of the embedding:
* byte buffers are `List Nat`, each element one byte;
* `usize` and the `repr(usize)` enums occupy 8 bytes, written native-endian
  (little-endian, as on the reference x86_64 host);
* signed integers are `Int` and are serialized as two's-complement bytes;
* floats are carried as their bit patterns (the source only ever touches
  their `to_ne_bytes` representation);
* Rust `Result<usize, ()>` on a `&mut [u8]` becomes an explicit pair of the
  updated buffer and an `Except Unit Nat`.
-/

/-- The opening curly brace character, written via `Char.ofNat` so that the
    source text of this file stays brace-free outside comments. -/
def lbrace : Char := Char.ofNat 123

/-- The closing curly brace character. -/
def rbrace : Char := Char.ofNat 125

/-- Little-endian byte serialization: `leBytes w n` is the `w` low bytes of
    `n`, least significant first (`to_ne_bytes` on the little-endian host). -/
def leBytes : Nat → Nat → List Nat
  | 0, _ => []
  | w + 1, n => n % 256 :: leBytes w (n / 256)

/-- Read a little-endian byte list back into a number. -/
def leToNat : List Nat → Nat
  | [] => 0
  | b :: rest => b % 256 + 256 * leToNat rest

/-- An 8-byte `usize` field, native-endian. -/
def usizeBytes (n : Nat) : List Nat := leBytes 8 n

/-- Two's-complement little-endian serialization of a signed integer into
    `w` bytes (`iN::to_ne_bytes`). -/
def intBytes (w : Nat) (v : Int) : List Nat := leBytes w ((v % ((2 : Int) ^ (8 * w))).toNat)

/-- `enum Level` from aya-log-common, `repr(usize)` starting at 1. -/
inductive Level where
  | Error
  | Warn
  | Info
  | Debug
  | Trace
deriving DecidableEq

/-- Discriminant of `Level` (`Error = 1`). -/
def Level.toNat : Level → Nat
  | .Error => 1
  | .Warn => 2
  | .Info => 3
  | .Debug => 4
  | .Trace => 5

/-- `enum RecordField`, `repr(usize)` starting at 1. -/
inductive RecordField where
  | Target
  | Level
  | Module
  | File
  | Line
  | NumArgs
deriving DecidableEq

/-- Discriminant of `RecordField` (`Target = 1`). -/
def RecordField.toNat : RecordField → Nat
  | .Target => 1
  | .Level => 2
  | .Module => 3
  | .File => 4
  | .Line => 5
  | .NumArgs => 6

/-- `enum ArgType`, `repr(usize)` starting at 0. -/
inductive ArgType where
  | I8
  | I16
  | I32
  | I64
  | Isize
  | U8
  | U16
  | U32
  | U64
  | Usize
  | F32
  | F64
  | ArrU8Len16
  | ArrU16Len8
  | Str
deriving DecidableEq

/-- Discriminant of `ArgType` (`I8 = 0`). -/
def ArgType.toNat : ArgType → Nat
  | .I8 => 0
  | .I16 => 1
  | .I32 => 2
  | .I64 => 3
  | .Isize => 4
  | .U8 => 5
  | .U16 => 6
  | .U32 => 7
  | .U64 => 8
  | .Usize => 9
  | .F32 => 10
  | .F64 => 11
  | .ArrU8Len16 => 12
  | .ArrU16Len8 => 13
  | .Str => 14

/-- `enum DisplayHint`, `repr(usize)` starting at 1. -/
inductive DisplayHint where
  | Default
  | LowerHex
  | UpperHex
  | IPv4
  | IPv6
deriving DecidableEq

/-- Discriminant of `DisplayHint` (`Default = 1`). -/
def DisplayHint.toNat : DisplayHint → Nat
  | .Default => 1
  | .LowerHex => 2
  | .UpperHex => 3
  | .IPv4 => 4
  | .IPv6 => 5

/-- `struct TagLenValue<T>`: the tag is kept as its native byte
    representation (`size_of::<T>()` bytes, here the 8-byte discriminant of
    one of the `repr(usize)` enums), the payload as raw bytes. -/
structure TagLenValue where
  tagBytes : List Nat
  hint : DisplayHint
  value : List Nat
deriving DecidableEq

/-- The required size computed by `TagLenValue::write`:
    `size_of::<T>() + size_of::<DisplayHint>() + size_of::<usize>() + value.len()`. -/
def TagLenValue.size (t : TagLenValue) : Nat :=
  t.tagBytes.length + 8 + 8 + t.value.length

/-- `TagLenValue::write`: check the buffer against the required size, then
    write tag, hint, payload length and finally
    `min(remaining buffer, payload length)` payload bytes.  Returns the
    updated buffer together with `Ok(size)` or, when the buffer is too
    short, the untouched buffer together with `Err(())`. -/
def TagLenValue.write (t : TagLenValue) (buf : List Nat) : List Nat × Except Unit Nat :=
  if buf.length < t.size then
    (buf, .error ())
  else
    let pre := t.tagBytes ++ usizeBytes t.hint.toNat ++ usizeBytes t.value.length
    let len := min (buf.length - pre.length) t.value.length
    (pre ++ t.value.take len ++ buf.drop (pre.length + len), .ok t.size)

/-- The loop body of `write_record_header`: write each entry at the running
    offset `size` into `buf[size..]`, propagating the first failure and
    keeping already-written entries in place. -/
def writeAttrs : List TagLenValue → List Nat → Nat → List Nat × Except Unit Nat
  | [], buf, size => (buf, .ok size)
  | attr :: rest, buf, size =>
    match attr.write (buf.drop size) with
    | (sub, .error ()) => (buf.take size ++ sub, .error ())
    | (sub, .ok n) => writeAttrs rest (buf.take size ++ sub) (size + n)

/-- The six header entries of `write_record_header`, in source order, each
    with the `Default` hint. -/
def headerEntries (target : List Nat) (level : Level) (module file : List Nat)
    (line num_args : Nat) : List TagLenValue :=
  [ ⟨usizeBytes RecordField.Target.toNat, .Default, target⟩,
    ⟨usizeBytes RecordField.Level.toNat, .Default, usizeBytes level.toNat⟩,
    ⟨usizeBytes RecordField.Module.toNat, .Default, module⟩,
    ⟨usizeBytes RecordField.File.toNat, .Default, file⟩,
    ⟨usizeBytes RecordField.Line.toNat, .Default, leBytes 4 line⟩,
    ⟨usizeBytes RecordField.NumArgs.toNat, .Default, usizeBytes num_args⟩ ]

/-- `write_record_header` from aya-log-common. -/
def write_record_header (buf : List Nat) (target : List Nat) (level : Level)
    (module file : List Nat) (line num_args : Nat) : List Nat × Except Unit Nat :=
  writeAttrs (headerEntries target level module file line num_args) buf 0

/-- The bytes one `TagLenValue` lays down when it fits: tag, hint,
    full-width length, payload. -/
def tlvBytes (t : TagLenValue) : List Nat :=
  t.tagBytes ++ usizeBytes t.hint.toNat ++ usizeBytes t.value.length ++ t.value

/-- Concatenated encoding of a list of entries. -/
def encodeAll : List TagLenValue → List Nat
  | [] => []
  | t :: rest => tlvBytes t ++ encodeAll rest

/-- The closed set of encodable values (the `WriteToBuf` implementations).
    Floats are carried as bit patterns; signed integers as `Int`. -/
inductive ArgValue where
  | i8 (v : Int)
  | i16 (v : Int)
  | i32 (v : Int)
  | i64 (v : Int)
  | isize (v : Int)
  | u8 (v : Nat)
  | u16 (v : Nat)
  | u32 (v : Nat)
  | u64 (v : Nat)
  | usize (v : Nat)
  | f32 (bits : Nat)
  | f64 (bits : Nat)
  | arrU8Len16 (a : List Nat)
  | arrU16Len8 (a : List Nat)
  | str (utf8 : List Nat)
deriving DecidableEq

/-- The `ArgType` tag each `WriteToBuf` implementation passes to
    `TagLenValue::new`. -/
def ArgValue.tag : ArgValue → ArgType
  | .i8 _ => .I8
  | .i16 _ => .I16
  | .i32 _ => .I32
  | .i64 _ => .I64
  | .isize _ => .Isize
  | .u8 _ => .U8
  | .u16 _ => .U16
  | .u32 _ => .U32
  | .u64 _ => .U64
  | .usize _ => .Usize
  | .f32 _ => .F32
  | .f64 _ => .F64
  | .arrU8Len16 _ => .ArrU8Len16
  | .arrU16Len8 _ => .ArrU16Len8
  | .str _ => .Str

/-- The native byte representation each `WriteToBuf` implementation hands
    to `TagLenValue::new`: `to_ne_bytes` for the numeric types, the raw 16
    bytes for `[u8; 16]`, the raw element bytes for `[u16; 8]`, the UTF-8
    bytes for `str`. -/
def ArgValue.bytes : ArgValue → List Nat
  | .i8 v => intBytes 1 v
  | .i16 v => intBytes 2 v
  | .i32 v => intBytes 4 v
  | .i64 v => intBytes 8 v
  | .isize v => intBytes 8 v
  | .u8 v => leBytes 1 v
  | .u16 v => leBytes 2 v
  | .u32 v => leBytes 4 v
  | .u64 v => leBytes 8 v
  | .usize v => leBytes 8 v
  | .f32 bits => leBytes 4 bits
  | .f64 bits => leBytes 8 bits
  | .arrU8Len16 a => a
  | .arrU16Len8 a => (a.map (leBytes 2)).flatten
  | .str utf8 => utf8

/-- The `WriteToBuf::write` implementations: build the `TagLenValue` with
    the corresponding tag and native bytes and delegate to its `write`. -/
def writeToBuf (v : ArgValue) (buf : List Nat) (hint : DisplayHint) :
    List Nat × Except Unit Nat :=
  (TagLenValue.mk (usizeBytes v.tag.toNat) hint v.bytes).write buf

/-- A decoder reading one entry back by the TLV layout: 8-byte tag, 8-byte
    hint, 8-byte length, then `length` payload bytes. -/
def readTLV (buf : List Nat) : Option (Nat × Nat × List Nat) :=
  if buf.length < 24 then none
  else
    let tag := leToNat (buf.take 8)
    let hint := leToNat ((buf.drop 8).take 8)
    let len := leToNat ((buf.drop 16).take 8)
    if buf.length < 24 + len then none
    else some (tag, hint, (buf.drop 24).take len)

theorem leBytes_length (w n : Nat) : (leBytes w n).length = w := by
  induction w generalizing n with
  | zero => rfl
  | succ w ih => simp [leBytes, ih]

theorem leToNat_leBytes (w n : Nat) : leToNat (leBytes w n) = n % 2 ^ (8 * w) := by
  induction w generalizing n with
  | zero => simp [leBytes, leToNat, Nat.mod_one]
  | succ w ih =>
    have h : (2 : Nat) ^ (8 * (w + 1)) = 256 * 2 ^ (8 * w) := by
      rw [show 8 * (w + 1) = 8 * w + 8 by ring, pow_add]
      norm_num
      ring
    simp only [leBytes, leToNat, ih, h, Nat.mod_mul, Nat.mod_mod]

/-!
## Template parser (aya-log-parser)

The source iterates over `char_indices`, peeking one character ahead to
recognize the doubled-brace escape, and jumps to the next closing brace for
a placeholder body.  The embedding runs the same loop as a character-at-a-
time state machine: `Mode.literal` is the plain scan, `Mode.afterOpen`
holds between an unescaped opening brace and the following character, and
`Mode.inParam body` collects the placeholder body up to the closing brace
(the source's `find` of the closing brace plus the slice of the interior).
-/

/-- `struct Parameter`: the contents of one placeholder. -/
structure Parameter where
  hint : DisplayHint
deriving DecidableEq

/-- `enum Fragment`. -/
inductive Fragment where
  | Literal (s : List Char)
  | Parameter (p : Parameter)
deriving DecidableEq

/-- The scan inside `push_literal` that rejects single braces: `last_open`
    and `last_close` toggle on each brace, and any other character (or the
    end of the span) fails when one of them is pending. -/
def singleBraceScan : List Char → Bool → Bool → Except String Unit
  | [], lastOpen, lastClose =>
    if lastOpen then .error "unmatched `\x7b` in format string"
    else if lastClose then .error "unmatched `\x7d` in format string"
    else .ok ()
  | c :: rest, lastOpen, lastClose =>
    if c = lbrace then singleBraceScan rest (!lastOpen) lastClose
    else if c = rbrace then singleBraceScan rest lastOpen (!lastClose)
    else if lastOpen then .error "unmatched `\x7b` in format string"
    else if lastClose then .error "unmatched `\x7d` in format string"
    else singleBraceScan rest false false

/-- `str::replace` of a doubled `ch` by a single `ch`: leftmost
    non-overlapping matches. -/
def collapseDouble (ch : Char) : List Char → List Char
  | a :: b :: rest =>
    if a = ch && b = ch then ch :: collapseDouble ch rest
    else a :: collapseDouble ch (b :: rest)
  | other => other

/-- `push_literal`: reject single braces, then append the literal with
    doubled opening braces collapsed first and doubled closing braces
    collapsed second (the two sequential `replace` calls of the source). -/
def push_literal (frag : List Fragment) (unescaped_literal : List Char) :
    Except String (List Fragment) :=
  match singleBraceScan unescaped_literal false false with
  | .error e => .error e
  | .ok () =>
    .ok (frag ++ [.Literal (collapseDouble rbrace (collapseDouble lbrace unescaped_literal))])

/-- `parse_display_hint`, in source match order. -/
def parse_display_hint (s : List Char) : Except String DisplayHint :=
  if s = ['x'] then .ok .LowerHex
  else if s = ['X'] then .ok .UpperHex
  else if s = ['i', 'p', 'v', '4'] then .ok .IPv4
  else if s = ['I', 'P', 'v', '4'] then .ok .IPv4
  else if s = ['i', 'p', 'v', '6'] then .ok .IPv6
  else if s = ['I', 'P', 'v', '6'] then .ok .IPv6
  else .error ("unknown display hint: \"" ++ String.mk s ++ "\"")

/-- `parse_param`: empty body gives the default hint, a body starting with
    a colon must continue with a recognized hint, anything else is an
    error naming the offending text. -/
def parse_param (input : List Char) : Except String Parameter :=
  match input with
  | [] => .ok ⟨DisplayHint.Default⟩
  | c :: rest =>
    if c = ':' then
      if rest = [] then .error "malformed format string (missing display hint after \x27:\x27)"
      else
        match parse_display_hint rest with
        | .ok hint => .ok ⟨hint⟩
        | .error e => .error e
    else .error ("unexpected content \"" ++ String.mk input ++ "\" in format string")

/-- Scanner mode: plain literal scan, just saw an unescaped opening brace,
    or inside a placeholder body. -/
inductive Mode where
  | literal
  | afterOpen
  | inParam (body : List Char)
deriving DecidableEq

/-- State of the `parse` loop: the literal span accumulated since the last
    placeholder (`format_string[end_pos..]` so far), the mode, and the
    fragments emitted so far. -/
structure ParseState where
  pending : List Char
  mode : Mode
  frags : List Fragment
deriving DecidableEq

/-- The guarded literal flush of `parse` (`brace_pos > end_pos` before a
    placeholder, `end_pos != format_string.len()` at the end). -/
def flushLiteral (frags : List Fragment) (pending : List Char) :
    Except String (List Fragment) :=
  if pending.isEmpty then .ok frags else push_literal frags pending

/-- One character of the `parse` loop. -/
def stepChar (st : ParseState) (c : Char) : Except String ParseState :=
  match st.mode with
  | .literal =>
    if c = lbrace then .ok ⟨st.pending, .afterOpen, st.frags⟩
    else .ok ⟨st.pending ++ [c], .literal, st.frags⟩
  | .afterOpen =>
    if c = lbrace then .ok ⟨st.pending ++ [lbrace, lbrace], .literal, st.frags⟩
    else
      match flushLiteral st.frags st.pending with
      | .error e => .error e
      | .ok frags =>
        if c = rbrace then
          match parse_param [] with
          | .error e => .error e
          | .ok p => .ok ⟨[], .literal, frags ++ [.Parameter p]⟩
        else .ok ⟨[], .inParam [c], frags⟩
  | .inParam body =>
    if c = rbrace then
      match parse_param body with
      | .error e => .error e
      | .ok p => .ok ⟨st.pending, .literal, st.frags ++ [.Parameter p]⟩
    else .ok ⟨st.pending, .inParam (body ++ [c]), st.frags⟩

/-- End of input: flush the trailing literal, or fail with the
    missing-closing-brace error when a placeholder is still open (the
    source flushes the pending literal before searching for the closing
    brace, so a bad pending literal reports its own error first). -/
def finalize (st : ParseState) : Except String (List Fragment) :=
  match st.mode with
  | .literal => flushLiteral st.frags st.pending
  | .afterOpen =>
    match flushLiteral st.frags st.pending with
    | .error e => .error e
    | .ok _ => .error "missing `\x7d` in format string"
  | .inParam _ => .error "missing `\x7d` in format string"

/-- The `parse` loop over the remaining characters. -/
def parseLoop (st : ParseState) : List Char → Except String (List Fragment)
  | [] => finalize st
  | c :: rest =>
    match stepChar st c with
    | .error e => .error e
    | .ok st2 => parseLoop st2 rest

/-- `parse` from aya-log-parser. -/
def parse (format_string : List Char) : Except String (List Fragment) :=
  parseLoop ⟨[], .literal, []⟩ format_string

example :
    parse ("foo ".toList ++ [lbrace, rbrace] ++ " bar ".toList ++ [lbrace, ':', 'x', rbrace]) =
      .ok [.Literal "foo ".toList, .Parameter ⟨.Default⟩,
        .Literal " bar ".toList, .Parameter ⟨.LowerHex⟩] := by
  rfl

example : parse ("bad ".toList ++ [lbrace]) = .error "missing `\x7d` in format string" := by rfl

example : parse ("bad ".toList ++ [rbrace]) = .error "unmatched `\x7d` in format string" := by rfl

example : parse [lbrace, ':', 'b', 'o', 'g', 'u', 's', rbrace] =
    .error "unknown display hint: \"bogus\"" := by rfl

/-!
## Lemmas about the encoding engine
-/

theorem usizeBytes_length (n : Nat) : (usizeBytes n).length = 8 := by
  simp [usizeBytes, leBytes_length]

theorem tlvBytes_length (t : TagLenValue) : (tlvBytes t).length = t.size := by
  simp [tlvBytes, TagLenValue.size, usizeBytes_length]
  omega

/-- Failure branch of `TagLenValue::write`: too-small buffer, nothing written. -/
theorem TagLenValue.write_err (t : TagLenValue) (buf : List Nat)
    (h : buf.length < t.size) : t.write buf = (buf, .error ()) := by
  simp [TagLenValue.write, h]

/-- Success branch of `TagLenValue::write`: the clamp resolves to the full
    payload, so the buffer becomes the entry's bytes followed by the
    untouched tail. -/
theorem TagLenValue.write_ok (t : TagLenValue) (buf : List Nat)
    (h : t.size ≤ buf.length) :
    t.write buf = (tlvBytes t ++ buf.drop t.size, .ok t.size) := by
  have hsz : t.tagBytes.length + 8 + 8 + t.value.length ≤ buf.length := h
  have hpre : (t.tagBytes ++ usizeBytes t.hint.toNat ++ usizeBytes t.value.length).length
      = t.tagBytes.length + 16 := by
    simp [usizeBytes_length]
  have hmin : min (buf.length - (t.tagBytes.length + 16)) t.value.length
      = t.value.length := by omega
  simp only [TagLenValue.write, Nat.not_lt.mpr h, if_false, hpre, hmin, List.take_length,
    tlvBytes, TagLenValue.size]
  have harith : t.tagBytes.length + 16 + t.value.length
      = t.tagBytes.length + 8 + 8 + t.value.length := by omega
  simp [List.append_assoc, harith]
  exact hsz

/-- C1: `TagLenValue::write` computes the required size as
    `size_of(tag) + size_of(hint) + size_of(length) + payload length`; a
    shorter buffer yields the capacity error with the buffer untouched,
    and otherwise tag, hint, full-width payload length and the whole
    payload are written in order and exactly the required size is
    returned. -/
theorem tlv_write_spec (t : TagLenValue) (buf : List Nat) :
    (buf.length < t.tagBytes.length + 8 + 8 + t.value.length →
      t.write buf = (buf, .error ())) ∧
    (t.tagBytes.length + 8 + 8 + t.value.length ≤ buf.length →
      t.write buf =
        (t.tagBytes ++ usizeBytes t.hint.toNat ++ usizeBytes t.value.length ++ t.value ++
          buf.drop (t.tagBytes.length + 8 + 8 + t.value.length),
         .ok (t.tagBytes.length + 8 + 8 + t.value.length))) := by
  constructor
  · intro h
    exact t.write_err buf h
  · intro h
    have := t.write_ok buf h
    simpa [tlvBytes, TagLenValue.size, List.append_assoc] using this

theorem tlv_write_spec_witness :
    ((List.replicate 10 0).length < (usizeBytes 1).length + 8 + 8 + [(5 : Nat)].length ∧
      TagLenValue.write ⟨usizeBytes 1, .Default, [5]⟩ (List.replicate 10 0) =
        (List.replicate 10 0, .error ())) ∧
    ((usizeBytes 1).length + 8 + 8 + [(5 : Nat)].length ≤ (List.replicate 30 9).length ∧
      TagLenValue.write ⟨usizeBytes 1, .Default, [5]⟩ (List.replicate 30 9) =
        (usizeBytes 1 ++ usizeBytes DisplayHint.Default.toNat ++ usizeBytes 1 ++ [5] ++
          (List.replicate 30 9).drop 25, .ok 25)) :=
  ⟨⟨by decide, (tlv_write_spec ⟨usizeBytes 1, .Default, [5]⟩ (List.replicate 10 0)).1 (by decide)⟩,
   ⟨by decide, (tlv_write_spec ⟨usizeBytes 1, .Default, [5]⟩ (List.replicate 30 9)).2 (by decide)⟩⟩

/-- C9: when `TagLenValue::write` returns `Ok(n)`, the buffer keeps its
    length and every byte at index `n` or beyond is unchanged. -/
theorem tlv_write_frame (t : TagLenValue) (buf : List Nat) (n : Nat)
    (h : (t.write buf).2 = .ok n) :
    ((t.write buf).1).length = buf.length ∧ ((t.write buf).1).drop n = buf.drop n := by
  by_cases hlt : buf.length < t.size
  · rw [t.write_err buf hlt] at h
    exact absurd h (by simp)
  · have hle : t.size ≤ buf.length := Nat.le_of_not_lt hlt
    have hw := t.write_ok buf hle
    rw [hw] at h ⊢
    have hn : n = t.size := by
      simpa using h.symm
    subst hn
    constructor
    · simp [tlvBytes_length]
      omega
    · rw [List.drop_left' (tlvBytes_length t)]

theorem tlv_write_frame_witness :
    ((TagLenValue.write ⟨usizeBytes 3, .Default, [1, 2]⟩ (List.replicate 40 6)).2 = .ok 26) ∧
    ((TagLenValue.write ⟨usizeBytes 3, .Default, [1, 2]⟩ (List.replicate 40 6)).1.length =
        (List.replicate 40 6).length ∧
      (TagLenValue.write ⟨usizeBytes 3, .Default, [1, 2]⟩ (List.replicate 40 6)).1.drop 26 =
        (List.replicate 40 6).drop 26) :=
  ⟨by rfl, tlv_write_frame ⟨usizeBytes 3, .Default, [1, 2]⟩ (List.replicate 40 6) 26 (by rfl)⟩

/-- C5: whenever the size precheck of `TagLenValue::write` passes, the
    payload-copy clamp `min(remaining buffer, payload length)` equals the
    payload length, and the buffer after the 24-byte prefix indeed holds
    the whole payload (the truncating branch is unreachable). -/
theorem tlv_clamp_never_truncates (t : TagLenValue) (buf : List Nat)
    (h : t.size ≤ buf.length) :
    min ((buf.drop (t.tagBytes.length + 16)).length) t.value.length = t.value.length ∧
    ((t.write buf).1.drop (t.tagBytes.length + 16)).take t.value.length = t.value := by
  have hsz : t.tagBytes.length + 8 + 8 + t.value.length ≤ buf.length := h
  constructor
  · simp only [List.length_drop]
    omega
  · rw [t.write_ok buf h]
    have hsplit : tlvBytes t ++ buf.drop t.size
        = (t.tagBytes ++ usizeBytes t.hint.toNat ++ usizeBytes t.value.length) ++
          (t.value ++ buf.drop t.size) := by
      simp [tlvBytes, List.append_assoc]
    have hp : (t.tagBytes ++ usizeBytes t.hint.toNat ++ usizeBytes t.value.length).length
        = t.tagBytes.length + 16 := by
      simp [usizeBytes_length]
    rw [hsplit, List.drop_left' hp]
    exact List.take_left t.value _

theorem tlv_clamp_never_truncates_witness :
    (TagLenValue.size ⟨usizeBytes 2, .LowerHex, [9, 9, 9]⟩ ≤ (List.replicate 27 0).length) ∧
    (min (((List.replicate 27 0).drop ((usizeBytes 2).length + 16)).length) 3 = 3 ∧
      ((TagLenValue.write ⟨usizeBytes 2, .LowerHex, [9, 9, 9]⟩ (List.replicate 27 0)).1.drop
          ((usizeBytes 2).length + 16)).take 3 = [9, 9, 9]) :=
  ⟨by decide, tlv_clamp_never_truncates ⟨usizeBytes 2, .LowerHex, [9, 9, 9]⟩
    (List.replicate 27 0) (by decide)⟩

/-- Reading one well-formed entry back from the TLV layout. -/
theorem readTLV_layout (a b c : Nat) (payload rest : List Nat)
    (hc : payload.length = c) (ha : a < 2 ^ 64) (hb : b < 2 ^ 64) (hcw : c < 2 ^ 64) :
    readTLV (usizeBytes a ++ (usizeBytes b ++ (usizeBytes c ++ (payload ++ rest)))) =
      some (a, b, payload) := by
  have hBlen : (usizeBytes a ++ (usizeBytes b ++ (usizeBytes c ++ (payload ++ rest)))).length
      = 24 + (c + rest.length) := by
    simp [usizeBytes_length, hc]
    omega
  have h8 : (usizeBytes a ++ (usizeBytes b ++ (usizeBytes c ++ (payload ++ rest)))).drop 8
      = usizeBytes b ++ (usizeBytes c ++ (payload ++ rest)) :=
    List.drop_left' (usizeBytes_length a)
  have h16 : (usizeBytes a ++ (usizeBytes b ++ (usizeBytes c ++ (payload ++ rest)))).drop 16
      = usizeBytes c ++ (payload ++ rest) := by
    rw [show (16 : Nat) = 8 + 8 from rfl, ← List.drop_drop, h8,
      List.drop_left' (usizeBytes_length b)]
  have h24 : (usizeBytes a ++ (usizeBytes b ++ (usizeBytes c ++ (payload ++ rest)))).drop 24
      = payload ++ rest := by
    rw [show (24 : Nat) = 16 + 8 from rfl, ← List.drop_drop, h16,
      List.drop_left' (usizeBytes_length c)]
  have hta : (usizeBytes a ++ (usizeBytes b ++ (usizeBytes c ++ (payload ++ rest)))).take 8
      = usizeBytes a :=
    List.take_left' (usizeBytes_length a)
  have htb : ((usizeBytes a ++ (usizeBytes b ++ (usizeBytes c ++ (payload ++ rest)))).drop 8).take 8
      = usizeBytes b := by
    rw [h8]
    exact List.take_left' (usizeBytes_length b)
  have htc : ((usizeBytes a ++ (usizeBytes b ++ (usizeBytes c ++ (payload ++ rest)))).drop 16).take 8
      = usizeBytes c := by
    rw [h16]
    exact List.take_left' (usizeBytes_length c)
  have hva : leToNat (usizeBytes a) = a := by
    rw [usizeBytes, leToNat_leBytes]
    exact Nat.mod_eq_of_lt ha
  have hvb : leToNat (usizeBytes b) = b := by
    rw [usizeBytes, leToNat_leBytes]
    exact Nat.mod_eq_of_lt hb
  have hvc : leToNat (usizeBytes c) = c := by
    rw [usizeBytes, leToNat_leBytes]
    exact Nat.mod_eq_of_lt hcw
  rw [readTLV]
  rw [if_neg (by omega)]
  simp only [hta, htb, htc, hva, hvb, hvc, h24]
  rw [if_neg (by omega)]
  rw [List.take_left' hc]

/-- C7: every `WriteToBuf` implementation writes a TLV entry whose payload
    is the value's native byte representation under the corresponding
    `ArgType` tag, so the TLV decoder recovers that representation, the
    hint and the tag exactly. -/
theorem writeToBuf_roundtrip (v : ArgValue) (hint : DisplayHint) (buf : List Nat)
    (hfit : 24 + v.bytes.length ≤ buf.length) (hword : v.bytes.length < 2 ^ 64) :
    readTLV (writeToBuf v buf hint).1 = some (v.tag.toNat, hint.toNat, v.bytes) ∧
    (writeToBuf v buf hint).2 = .ok (24 + v.bytes.length) := by
  have htag : v.tag.toNat < 2 ^ 64 := by
    cases v <;> norm_num [ArgValue.tag, ArgType.toNat]
  have hhint : hint.toNat < 2 ^ 64 := by
    cases hint <;> norm_num [DisplayHint.toNat]
  have hsize : (TagLenValue.mk (usizeBytes v.tag.toNat) hint v.bytes).size ≤ buf.length := by
    simp only [TagLenValue.size, usizeBytes_length]
    omega
  have hsizeval : (TagLenValue.mk (usizeBytes v.tag.toNat) hint v.bytes).size
      = 24 + v.bytes.length := by
    simp only [TagLenValue.size, usizeBytes_length]
  rw [writeToBuf, TagLenValue.write_ok _ _ hsize]
  constructor
  · have hsplit : tlvBytes ⟨usizeBytes v.tag.toNat, hint, v.bytes⟩ ++
        buf.drop (TagLenValue.size ⟨usizeBytes v.tag.toNat, hint, v.bytes⟩)
        = usizeBytes v.tag.toNat ++ (usizeBytes hint.toNat ++ (usizeBytes v.bytes.length ++
            (v.bytes ++ buf.drop (TagLenValue.size ⟨usizeBytes v.tag.toNat, hint, v.bytes⟩)))) := by
      simp [tlvBytes, List.append_assoc]
    rw [hsplit, readTLV_layout _ _ _ _ _ rfl htag hhint hword]
  · rw [hsizeval]

theorem writeToBuf_roundtrip_witness :
    (24 + (ArgValue.u32 7).bytes.length ≤ (List.replicate 30 1).length ∧
      (ArgValue.u32 7).bytes.length < 2 ^ 64) ∧
    (readTLV (writeToBuf (.u32 7) (List.replicate 30 1) .IPv4).1 =
      some (ArgType.U32.toNat, DisplayHint.IPv4.toNat, leBytes 4 7) ∧
     (writeToBuf (.u32 7) (List.replicate 30 1) .IPv4).2 = .ok 28) :=
  ⟨⟨by decide, by decide⟩,
   writeToBuf_roundtrip (.u32 7) .IPv4 (List.replicate 30 1) (by decide) (by decide)⟩

theorem drop_append_len {α : Type} (l₁ l₂ : List α) (k : Nat) :
    (l₁ ++ l₂).drop (l₁.length + k) = l₂.drop k := by
  rw [← List.drop_drop, List.drop_left]

theorem encodeAll_cons (a : TagLenValue) (es : List TagLenValue) :
    encodeAll (a :: es) = tlvBytes a ++ encodeAll es := rfl

theorem encodeAll_append (l₁ l₂ : List TagLenValue) :
    encodeAll (l₁ ++ l₂) = encodeAll l₁ ++ encodeAll l₂ := by
  induction l₁ with
  | nil => simp [encodeAll]
  | cons a l₁ ih => simp [encodeAll_cons, ih]

/-- Success case of the header loop: when the whole encoding fits after
    offset `size`, every entry is written back to back. -/
theorem writeAttrs_ok (es : List TagLenValue) (buf : List Nat) (size : Nat)
    (hsize : size ≤ buf.length)
    (hfit : size + (encodeAll es).length ≤ buf.length) :
    writeAttrs es buf size =
      (buf.take size ++ encodeAll es ++ buf.drop (size + (encodeAll es).length),
       .ok (size + (encodeAll es).length)) := by
  induction es generalizing buf size with
  | nil =>
    simp [writeAttrs, encodeAll, List.take_append_drop]
  | cons a es ih =>
    have hlen : (encodeAll (a :: es)).length = a.size + (encodeAll es).length := by
      simp [encodeAll_cons, tlvBytes_length]
    rw [hlen] at hfit ⊢
    have hfits : a.size ≤ (buf.drop size).length := by
      simp only [List.length_drop]
      omega
    have hdd : (buf.drop size).drop a.size = buf.drop (size + a.size) := List.drop_drop _ _ _
    have hstep : writeAttrs (a :: es) buf size =
        writeAttrs es (buf.take size ++ (tlvBytes a ++ buf.drop (size + a.size)))
          (size + a.size) := by
      rw [writeAttrs, TagLenValue.write_ok a _ hfits, hdd]
    rw [hstep]
    have htklen : (buf.take size ++ tlvBytes a).length = size + a.size := by
      simp [tlvBytes_length]
      omega
    have hassoc : buf.take size ++ (tlvBytes a ++ buf.drop (size + a.size))
        = (buf.take size ++ tlvBytes a) ++ buf.drop (size + a.size) := by
      simp [List.append_assoc]
    have hnb : (buf.take size ++ (tlvBytes a ++ buf.drop (size + a.size))).length
        = buf.length := by
      simp [tlvBytes_length]
      omega
    have ih2 := ih (buf.take size ++ (tlvBytes a ++ buf.drop (size + a.size))) (size + a.size)
      (by rw [hnb]; omega) (by rw [hnb]; omega)
    rw [ih2, hassoc]
    have htk : ((buf.take size ++ tlvBytes a) ++ buf.drop (size + a.size)).take (size + a.size)
        = buf.take size ++ tlvBytes a := List.take_left' htklen
    have hdr : ((buf.take size ++ tlvBytes a) ++ buf.drop (size + a.size)).drop
          (size + a.size + (encodeAll es).length)
        = buf.drop (size + a.size + (encodeAll es).length) := by
      rw [show size + a.size + (encodeAll es).length
          = (buf.take size ++ tlvBytes a).length + (encodeAll es).length by rw [htklen],
        drop_append_len, List.drop_drop]
      rw [htklen]
    rw [htk, hdr, encodeAll_cons]
    simp [List.append_assoc]
    constructor
    · rw [show size + a.size + (encodeAll es).length = size + (a.size + (encodeAll es).length)
        by omega]
    · omega

/-- Failure case of the header loop: the first entry that does not fit
    stops the loop with the capacity error; the `k` entries before it
    remain in the buffer, back to back, with the rest untouched. -/
theorem writeAttrs_err (es : List TagLenValue) (buf : List Nat) (size : Nat)
    (hsize : size ≤ buf.length)
    (hover : buf.length < size + (encodeAll es).length) :
    ∃ k, writeAttrs es buf size =
        (buf.take size ++ encodeAll (es.take k) ++
          buf.drop (size + (encodeAll (es.take k)).length), .error ()) ∧
      size + (encodeAll (es.take k)).length ≤ buf.length := by
  induction es generalizing buf size with
  | nil =>
    exact absurd hover (by simp [encodeAll]; omega)
  | cons a es ih =>
    have hlen : (encodeAll (a :: es)).length = a.size + (encodeAll es).length := by
      simp [encodeAll_cons, tlvBytes_length]
    by_cases hfits : a.size ≤ (buf.drop size).length
    · have hdd : (buf.drop size).drop a.size = buf.drop (size + a.size) := List.drop_drop _ _ _
      have hstep : writeAttrs (a :: es) buf size =
          writeAttrs es (buf.take size ++ (tlvBytes a ++ buf.drop (size + a.size)))
            (size + a.size) := by
        rw [writeAttrs, TagLenValue.write_ok a _ hfits, hdd]
      have hdlen : (buf.drop size).length = buf.length - size := by simp
      have htklen : (buf.take size ++ tlvBytes a).length = size + a.size := by
        simp [tlvBytes_length]
        omega
      have hnb : (buf.take size ++ (tlvBytes a ++ buf.drop (size + a.size))).length
          = buf.length := by
        simp [tlvBytes_length]
        omega
      obtain ⟨k, hk1, hk2⟩ := ih (buf.take size ++ (tlvBytes a ++ buf.drop (size + a.size)))
        (size + a.size) (by rw [hnb]; rw [hdlen] at hfits; omega)
        (by rw [hnb]; rw [hlen] at hover; omega)
      refine ⟨k + 1, ?_, ?_⟩
      · rw [hstep, hk1]
        have hassoc : buf.take size ++ (tlvBytes a ++ buf.drop (size + a.size))
            = (buf.take size ++ tlvBytes a) ++ buf.drop (size + a.size) := by
          simp [List.append_assoc]
        have htk : (buf.take size ++ (tlvBytes a ++ buf.drop (size + a.size))).take (size + a.size)
            = buf.take size ++ tlvBytes a := by
          rw [hassoc]
          exact List.take_left' htklen
        have hdr : (buf.take size ++ (tlvBytes a ++ buf.drop (size + a.size))).drop
              (size + a.size + (encodeAll (es.take k)).length)
            = buf.drop (size + a.size + (encodeAll (es.take k)).length) := by
          rw [hassoc, show size + a.size + (encodeAll (es.take k)).length
              = (buf.take size ++ tlvBytes a).length + (encodeAll (es.take k)).length
              by rw [htklen],
            drop_append_len, List.drop_drop, htklen]
        rw [htk, hdr]
        have htake : (a :: es).take (k + 1) = a :: es.take k := rfl
        rw [htake, encodeAll_cons]
        have harith : size + a.size + (encodeAll (es.take k)).length
            = size + (tlvBytes a ++ encodeAll (es.take k)).length := by
          simp [tlvBytes_length]
          omega
        rw [harith]
        simp [List.append_assoc]
      · rw [hnb] at hk2
        have htake : (a :: es).take (k + 1) = a :: es.take k := rfl
        rw [htake, encodeAll_cons]
        simp only [List.length_append, tlvBytes_length]
        omega
    · push_neg at hfits
      rw [writeAttrs, TagLenValue.write_err a _ hfits]
      refine ⟨0, ?_, ?_⟩
      · simp [encodeAll, List.take_append_drop]
      · simpa using hsize

/-- C2: `write_record_header` encodes the six header entries (target,
    level, module, file, line, argument count, each with the default hint)
    in canonical order and returns the total byte count; when the buffer
    cannot hold them all it fails with the capacity error on the first
    entry that does not fit, the already-written prefix remaining in the
    buffer. -/
theorem write_record_header_spec (buf target : List Nat) (level : Level)
    (module file : List Nat) (line num_args : Nat) :
    ((encodeAll (headerEntries target level module file line num_args)).length ≤ buf.length →
      write_record_header buf target level module file line num_args =
        (encodeAll (headerEntries target level module file line num_args) ++
          buf.drop (encodeAll (headerEntries target level module file line num_args)).length,
         .ok (encodeAll (headerEntries target level module file line num_args)).length)) ∧
    (buf.length < (encodeAll (headerEntries target level module file line num_args)).length →
      ∃ m, m ≤ buf.length ∧
        write_record_header buf target level module file line num_args =
          ((encodeAll (headerEntries target level module file line num_args)).take m ++
            buf.drop m, .error ())) := by
  constructor
  · intro h
    have hok := writeAttrs_ok (headerEntries target level module file line num_args) buf 0
      (Nat.zero_le _) (by omega)
    simpa [write_record_header] using hok
  · intro h
    obtain ⟨k, hk1, hk2⟩ := writeAttrs_err (headerEntries target level module file line num_args)
      buf 0 (Nat.zero_le _) (by omega)
    refine ⟨(encodeAll ((headerEntries target level module file line num_args).take k)).length,
      by omega, ?_⟩
    rw [write_record_header, hk1]
    have hsplitEnc : encodeAll (headerEntries target level module file line num_args)
        = encodeAll ((headerEntries target level module file line num_args).take k) ++
          encodeAll ((headerEntries target level module file line num_args).drop k) := by
      rw [← encodeAll_append, List.take_append_drop]
    rw [hsplitEnc, List.take_left]
    simp

set_option maxRecDepth 100000 in
theorem write_record_header_spec_witness :
    ((encodeAll (headerEntries [] .Error [] [] 0 0)).length ≤ (List.replicate 200 3).length ∧
      write_record_header (List.replicate 200 3) [] .Error [] [] 0 0 =
        (encodeAll (headerEntries [] .Error [] [] 0 0) ++
          (List.replicate 200 3).drop (encodeAll (headerEntries [] .Error [] [] 0 0)).length,
         .ok (encodeAll (headerEntries [] .Error [] [] 0 0)).length)) ∧
    ((List.replicate 100 3).length < (encodeAll (headerEntries [] .Error [] [] 0 0)).length ∧
      ∃ m, m ≤ (List.replicate 100 3).length ∧
        write_record_header (List.replicate 100 3) [] .Error [] [] 0 0 =
          ((encodeAll (headerEntries [] .Error [] [] 0 0)).take m ++
            (List.replicate 100 3).drop m, .error ())) :=
  ⟨⟨by decide, (write_record_header_spec (List.replicate 200 3) [] .Error [] [] 0 0).1 (by decide)⟩,
   ⟨by decide, (write_record_header_spec (List.replicate 100 3) [] .Error [] [] 0 0).2 (by decide)⟩⟩

/-!
## Parser claims and invariants
-/

/-- C3 (refuted on the code): the template `}{{}` contains two lone
    unmatched closing braces (position 0 and position 3; neither pairs
    with an adjacent closing brace, and positions 1-2 are the `{{`
    escape), yet `parse` accepts it, returning the literal fragment
    `}{}` — the toggle-based scan of `push_literal` lets brace-only spans
    cancel out.  The claim's own example `bad }` does fail as stated
    (second conjunct). -/
theorem parse_accepts_lone_unmatched_braces :
    parse [rbrace, lbrace, lbrace, rbrace] = .ok [.Literal [rbrace, lbrace, rbrace]] ∧
    parse ("bad ".toList ++ [rbrace]) = .error "unmatched `\x7d` in format string" :=
  ⟨rfl, rfl⟩

/-- C6: the placeholder body grammar of `parse_param`: empty body maps to
    the default hint, the six recognized hint keywords map to their hints,
    a bare colon, an unknown keyword after the colon and any non-empty
    body not starting with a colon are errors naming the offending text. -/
theorem parse_param_spec (body rest : List Char) :
    parse_param [] = .ok ⟨.Default⟩ ∧
    parse_param [':', 'x'] = .ok ⟨.LowerHex⟩ ∧
    parse_param [':', 'X'] = .ok ⟨.UpperHex⟩ ∧
    parse_param (':' :: "ipv4".toList) = .ok ⟨.IPv4⟩ ∧
    parse_param (':' :: "IPv4".toList) = .ok ⟨.IPv4⟩ ∧
    parse_param (':' :: "ipv6".toList) = .ok ⟨.IPv6⟩ ∧
    parse_param (':' :: "IPv6".toList) = .ok ⟨.IPv6⟩ ∧
    parse_param [':'] = .error "malformed format string (missing display hint after \x27:\x27)" ∧
    (rest ≠ [] → rest ≠ ['x'] → rest ≠ ['X'] →
      rest ≠ ['i', 'p', 'v', '4'] → rest ≠ ['I', 'P', 'v', '4'] →
      rest ≠ ['i', 'p', 'v', '6'] → rest ≠ ['I', 'P', 'v', '6'] →
      parse_param (':' :: rest) =
        .error ("unknown display hint: \"" ++ String.mk rest ++ "\"")) ∧
    (body ≠ [] → body.head? ≠ some ':' →
      parse_param body =
        .error ("unexpected content \"" ++ String.mk body ++ "\" in format string")) := by
  refine ⟨rfl, rfl, rfl, rfl, rfl, rfl, rfl, rfl, ?_, ?_⟩
  · intro h0 h1 h2 h3 h4 h5 h6
    simp [parse_param, parse_display_hint, h0, h1, h2, h3, h4, h5, h6]
  · intro hne hh
    cases body with
    | nil => exact absurd rfl hne
    | cons c cs =>
      have hc : c ≠ ':' := by
        intro hcc
        exact hh (by rw [hcc]; rfl)
      simp [parse_param, hc]

theorem parse_param_spec_witness :
    (("bogus".toList ≠ ([] : List Char)) ∧
      parse_param (':' :: "bogus".toList) = .error "unknown display hint: \"bogus\"") ∧
    (("zz".toList ≠ ([] : List Char)) ∧ "zz".toList.head? ≠ some ':' ∧
      parse_param "zz".toList = .error "unexpected content \"zz\" in format string") := by
  have h := parse_param_spec "zz".toList "bogus".toList
  exact ⟨⟨by decide,
      h.2.2.2.2.2.2.2.2.1 (by decide) (by decide) (by decide) (by decide) (by decide)
        (by decide) (by decide)⟩,
    ⟨by decide, by decide, h.2.2.2.2.2.2.2.2.2 (by decide) (by decide)⟩⟩

/-- Is a fragment a literal? -/
def isLit : Fragment → Bool
  | .Literal _ => true
  | .Parameter _ => false

/-- No two adjacent literal fragments. -/
def noAdjLits : List Fragment → Bool
  | a :: b :: rest => !(isLit a && isLit b) && noAdjLits (b :: rest)
  | _ => true

/-- Every literal fragment is a non-empty string. -/
def litsNonempty (fs : List Fragment) : Bool :=
  fs.all fun f =>
    match f with
    | .Literal l => !l.isEmpty
    | .Parameter _ => true

/-- The fragment list does not end with a literal. -/
def endsNotLit : List Fragment → Bool
  | [] => true
  | [f] => !isLit f
  | _ :: b :: rest => endsNotLit (b :: rest)

theorem collapseDouble_ne_nil (ch : Char) (l : List Char) (h : l ≠ []) :
    collapseDouble ch l ≠ [] := by
  match l with
  | [] => exact absurd rfl h
  | [a] => simp [collapseDouble]
  | a :: b :: rest =>
    rw [collapseDouble]
    split <;> simp

theorem push_literal_ok (frags : List Fragment) (lit : List Char) (out : List Fragment)
    (h : push_literal frags lit = .ok out) :
    out = frags ++ [.Literal (collapseDouble rbrace (collapseDouble lbrace lit))] := by
  rw [push_literal] at h
  cases hscan : singleBraceScan lit false false with
  | error e => rw [hscan] at h; exact absurd h (by simp)
  | ok u => rw [hscan] at h; cases u; simpa using h.symm

theorem litsNonempty_append (l₁ l₂ : List Fragment) :
    litsNonempty (l₁ ++ l₂) = (litsNonempty l₁ && litsNonempty l₂) := by
  simp [litsNonempty, List.all_append]

theorem noAdjLits_tail (a : Fragment) (fs : List Fragment)
    (h : noAdjLits (a :: fs) = true) : noAdjLits fs = true := by
  cases fs with
  | nil => rfl
  | cons b fs2 =>
    rw [noAdjLits, Bool.and_eq_true] at h
    exact h.2

theorem noAdjLits_snoc_param (fs : List Fragment) (p : Parameter)
    (h : noAdjLits fs = true) : noAdjLits (fs ++ [.Parameter p]) = true := by
  induction fs with
  | nil => rfl
  | cons a fs ih =>
    cases fs with
    | nil => simp [noAdjLits, isLit]
    | cons b fs2 =>
      rw [noAdjLits, Bool.and_eq_true] at h
      have ihh := ih h.2
      simp only [List.cons_append] at ihh ⊢
      rw [noAdjLits, Bool.and_eq_true]
      exact ⟨h.1, ihh⟩

theorem noAdjLits_snoc_lit (fs : List Fragment) (l : List Char)
    (h : noAdjLits fs = true) (he : endsNotLit fs = true) :
    noAdjLits (fs ++ [.Literal l]) = true := by
  induction fs with
  | nil => rfl
  | cons a fs ih =>
    cases fs with
    | nil =>
      have ha : isLit a = false := by
        rw [endsNotLit] at he
        simpa using he
      simp [noAdjLits, ha]
    | cons b fs2 =>
      rw [noAdjLits, Bool.and_eq_true] at h
      rw [endsNotLit] at he
      have ihh := ih h.2 he
      simp only [List.cons_append] at ihh ⊢
      rw [noAdjLits, Bool.and_eq_true]
      exact ⟨h.1, ihh⟩

theorem endsNotLit_snoc_param (fs : List Fragment) (p : Parameter) :
    endsNotLit (fs ++ [.Parameter p]) = true := by
  induction fs with
  | nil => rfl
  | cons a fs ih =>
    cases fs with
    | nil => rfl
    | cons b fs2 =>
      simp only [List.cons_append] at ih ⊢
      rw [endsNotLit]
      exact ih

/-- Mode-dependent part of the loop invariant: outside a placeholder body
    the emitted fragments never end with a literal (a flushed literal is
    always followed by the parameter that triggered the flush). -/
def modeEndsOk : Mode → List Fragment → Prop
  | .inParam _, _ => True
  | _, frags => endsNotLit frags = true

/-- Invariant of the `parse` loop state. -/
def stInv (st : ParseState) : Prop :=
  litsNonempty st.frags = true ∧ noAdjLits st.frags = true ∧ modeEndsOk st.mode st.frags

theorem flushLiteral_inv (frags : List Fragment) (pending : List Char)
    (frags2 : List Fragment) (h : flushLiteral frags pending = .ok frags2)
    (hl : litsNonempty frags = true) (ha : noAdjLits frags = true)
    (he : endsNotLit frags = true) :
    litsNonempty frags2 = true ∧ noAdjLits frags2 = true := by
  rw [flushLiteral] at h
  by_cases hp : pending.isEmpty
  · rw [if_pos hp] at h
    obtain rfl : frags = frags2 := by simpa using h
    exact ⟨hl, ha⟩
  · rw [if_neg hp] at h
    have hout := push_literal_ok _ _ _ h
    subst hout
    have hne : pending ≠ [] := by simpa using hp
    have h2 := collapseDouble_ne_nil rbrace _ (collapseDouble_ne_nil lbrace pending hne)
    constructor
    · rw [litsNonempty_append, hl]
      simp [litsNonempty, h2]
    · exact noAdjLits_snoc_lit frags _ ha he

theorem stepChar_inv (st st2 : ParseState) (c : Char)
    (hinv : stInv st) (h : stepChar st c = .ok st2) : stInv st2 := by
  obtain ⟨pending, mode, frags⟩ := st
  obtain ⟨hl, ha, hm⟩ := hinv
  cases mode with
  | literal =>
    have hme : endsNotLit frags = true := hm
    simp only [stepChar] at h
    by_cases hc : c = lbrace
    · rw [if_pos hc] at h
      injection h with h2
      subst h2
      exact ⟨hl, ha, hme⟩
    · rw [if_neg hc] at h
      injection h with h2
      subst h2
      exact ⟨hl, ha, hme⟩
  | afterOpen =>
    have hme : endsNotLit frags = true := hm
    simp only [stepChar] at h
    by_cases hc : c = lbrace
    · rw [if_pos hc] at h
      injection h with h2
      subst h2
      exact ⟨hl, ha, hme⟩
    · rw [if_neg hc] at h
      cases hflush : flushLiteral frags pending with
      | error e => rw [hflush] at h; simp at h
      | ok frags2 =>
        rw [hflush] at h
        dsimp only at h
        obtain ⟨hl2, ha2⟩ := flushLiteral_inv _ _ _ hflush hl ha hme
        by_cases hr : c = rbrace
        · rw [if_pos hr] at h
          simp only [show parse_param [] = Except.ok ⟨DisplayHint.Default⟩ from rfl] at h
          injection h with h2
          subst h2
          refine ⟨?_, noAdjLits_snoc_param _ _ ha2, endsNotLit_snoc_param _ _⟩
          rw [litsNonempty_append, hl2]
          rfl
        · rw [if_neg hr] at h
          injection h with h2
          subst h2
          exact ⟨hl2, ha2, trivial⟩
  | inParam body =>
    simp only [stepChar] at h
    by_cases hr : c = rbrace
    · rw [if_pos hr] at h
      cases hpp : parse_param body with
      | error e => rw [hpp] at h; simp at h
      | ok p =>
        rw [hpp] at h
        dsimp only at h
        injection h with h2
        subst h2
        refine ⟨?_, noAdjLits_snoc_param _ _ ha, endsNotLit_snoc_param _ _⟩
        rw [litsNonempty_append, hl]
        rfl
    · rw [if_neg hr] at h
      injection h with h2
      subst h2
      exact ⟨hl, ha, trivial⟩

theorem finalize_inv (st : ParseState) (out : List Fragment)
    (hinv : stInv st) (h : finalize st = .ok out) :
    litsNonempty out = true ∧ noAdjLits out = true := by
  obtain ⟨pending, mode, frags⟩ := st
  obtain ⟨hl, ha, hm⟩ := hinv
  cases mode with
  | literal =>
    simp only [finalize] at h
    exact flushLiteral_inv _ _ _ h hl ha hm
  | afterOpen =>
    simp only [finalize] at h
    cases hflush : flushLiteral frags pending with
    | error e => rw [hflush] at h; simp at h
    | ok f2 => rw [hflush] at h; simp at h
  | inParam body =>
    simp only [finalize] at h
    simp at h

theorem parseLoop_inv (s : List Char) (st : ParseState) (out : List Fragment)
    (hinv : stInv st) (h : parseLoop st s = .ok out) :
    litsNonempty out = true ∧ noAdjLits out = true := by
  induction s generalizing st with
  | nil => exact finalize_inv st out hinv h
  | cons c s ih =>
    simp only [parseLoop] at h
    cases hstep : stepChar st c with
    | error e => rw [hstep] at h; simp at h
    | ok st2 =>
      rw [hstep] at h
      exact ih st2 (stepChar_inv st st2 c hinv hstep) h

/-- C10: on every successful parse, all literal fragments are non-empty
    and no two literal fragments are adjacent (consecutive placeholders
    produce no intervening literal). -/
theorem parse_fragment_invariants (s : List Char) (frags : List Fragment)
    (h : parse s = .ok frags) :
    litsNonempty frags = true ∧ noAdjLits frags = true :=
  parseLoop_inv s ⟨[], .literal, []⟩ frags ⟨rfl, rfl, rfl⟩ h

theorem parse_fragment_invariants_witness :
    (parse ("a ".toList ++ [lbrace, rbrace, lbrace, rbrace] ++ " b".toList) =
      .ok [.Literal "a ".toList, .Parameter ⟨.Default⟩, .Parameter ⟨.Default⟩,
        .Literal " b".toList]) ∧
    (litsNonempty [.Literal "a ".toList, .Parameter ⟨.Default⟩, .Parameter ⟨.Default⟩,
        .Literal " b".toList] = true ∧
      noAdjLits [.Literal "a ".toList, .Parameter ⟨.Default⟩, .Parameter ⟨.Default⟩,
        .Literal " b".toList] = true) :=
  ⟨rfl, parse_fragment_invariants
    ("a ".toList ++ [lbrace, rbrace, lbrace, rbrace] ++ " b".toList) _ rfl⟩

/-!
## Round-trip: reconstructing a template from fragments and re-parsing
-/

/-- Re-escape a literal: double every brace. -/
def escapeLit : List Char → List Char
  | [] => []
  | c :: rest =>
    if c = lbrace ∨ c = rbrace then c :: c :: escapeLit rest
    else c :: escapeLit rest

/-- Canonical placeholder body text for a hint (empty for the default
    hint, `:x`, `:X`, `:ipv4`, `:ipv6` otherwise). -/
def hintChars : DisplayHint → List Char
  | .Default => []
  | .LowerHex => [':', 'x']
  | .UpperHex => [':', 'X']
  | .IPv4 => [':', 'i', 'p', 'v', '4']
  | .IPv6 => [':', 'i', 'p', 'v', '6']

/-- Render one fragment back to template text. -/
def unparseFrag : Fragment → List Char
  | .Literal l => escapeLit l
  | .Parameter p => lbrace :: (hintChars p.hint ++ [rbrace])

/-- Render a fragment list back to a template. -/
def unparse : List Fragment → List Char
  | [] => []
  | f :: rest => unparseFrag f ++ unparse rest

/-- The head of the fragment list is not a literal. -/
def headNotLit : List Fragment → Bool
  | .Literal _ :: _ => false
  | _ => true

theorem isEmpty_false_of_ne_nil {α : Type} (l : List α) (h : l ≠ []) :
    l.isEmpty = false := by
  cases l with
  | nil => exact absurd rfl h
  | cons a l => rfl

theorem escapeLit_ne_nil (l : List Char) (h : l ≠ []) : escapeLit l ≠ [] := by
  cases l with
  | nil => exact absurd rfl h
  | cons c rest =>
    rw [escapeLit]
    split <;> simp

theorem singleBraceScan_escape (l : List Char) :
    singleBraceScan (escapeLit l) false false = .ok () := by
  induction l with
  | nil => rfl
  | cons c rest ih =>
    by_cases h1 : c = lbrace
    · subst h1
      rw [show escapeLit (lbrace :: rest) = lbrace :: lbrace :: escapeLit rest by
        rw [escapeLit, if_pos (Or.inl rfl)]]
      rw [singleBraceScan, if_pos rfl, singleBraceScan, if_pos rfl]
      simpa using ih
    · by_cases h2 : c = rbrace
      · subst h2
        rw [show escapeLit (rbrace :: rest) = rbrace :: rbrace :: escapeLit rest by
          rw [escapeLit, if_pos (Or.inr rfl)]]
        rw [singleBraceScan, if_neg (by decide), if_pos rfl,
          singleBraceScan, if_neg (by decide), if_pos rfl]
        simpa using ih
      · rw [show escapeLit (c :: rest) = c :: escapeLit rest by
          rw [escapeLit, if_neg (by simp [h1, h2])]]
        rw [singleBraceScan, if_neg h1, if_neg h2, if_neg (by simp), if_neg (by simp)]
        exact ih

theorem collapseDouble_head_ne (ch a : Char) (xs : List Char) (h : a ≠ ch) :
    collapseDouble ch (a :: xs) = a :: collapseDouble ch xs := by
  cases xs with
  | nil => rfl
  | cons b xs2 =>
    rw [collapseDouble, if_neg (by simp [h])]

theorem collapseDouble_head_pair (ch : Char) (xs : List Char) :
    collapseDouble ch (ch :: ch :: xs) = ch :: collapseDouble ch xs := by
  rw [collapseDouble, if_pos (by simp)]

theorem collapse_escapeLit (l : List Char) :
    collapseDouble rbrace (collapseDouble lbrace (escapeLit l)) = l := by
  induction l with
  | nil => rfl
  | cons c rest ih =>
    by_cases h1 : c = lbrace
    · subst h1
      rw [show escapeLit (lbrace :: rest) = lbrace :: lbrace :: escapeLit rest by
        rw [escapeLit, if_pos (Or.inl rfl)]]
      rw [collapseDouble_head_pair, collapseDouble_head_ne rbrace lbrace _ (by decide), ih]
    · by_cases h2 : c = rbrace
      · subst h2
        rw [show escapeLit (rbrace :: rest) = rbrace :: rbrace :: escapeLit rest by
          rw [escapeLit, if_pos (Or.inr rfl)]]
        rw [collapseDouble_head_ne lbrace rbrace _ (by decide),
          collapseDouble_head_ne lbrace rbrace _ (by decide),
          collapseDouble_head_pair, ih]
      · rw [show escapeLit (c :: rest) = c :: escapeLit rest by
          rw [escapeLit, if_neg (by simp [h1, h2])]]
        rw [collapseDouble_head_ne lbrace c _ h1, collapseDouble_head_ne rbrace c _ h2, ih]

theorem push_literal_escape (acc : List Fragment) (l : List Char) :
    push_literal acc (escapeLit l) = .ok (acc ++ [.Literal l]) := by
  rw [push_literal, singleBraceScan_escape, collapse_escapeLit]

/-- C8: doubled braces in literal spans are collapsed to single braces in
    the emitted `Literal` fragment: every span `push_literal` accepts is
    emitted with the doubled-opening-brace and doubled-closing-brace
    collapses applied (the source's two `replace` passes); consequently a
    span in which every brace is doubled is emitted verbatim with each
    doubled brace made single; and in particular the template
    `a {{literal}} b` parses to the one literal fragment `a {literal} b`,
    with no parameter fragments. -/
theorem push_literal_collapses_doubled_braces :
    (∀ (frags : List Fragment) (lit : List Char) (out : List Fragment),
      push_literal frags lit = .ok out →
      out = frags ++ [.Literal (collapseDouble rbrace (collapseDouble lbrace lit))]) ∧
    (∀ (frags : List Fragment) (l : List Char),
      push_literal frags (escapeLit l) = .ok (frags ++ [.Literal l])) ∧
    parse ("a ".toList ++ [lbrace, lbrace] ++ "literal".toList ++ [rbrace, rbrace] ++
        " b".toList) =
      .ok [.Literal ("a ".toList ++ [lbrace] ++ "literal".toList ++ [rbrace] ++ " b".toList)] :=
  ⟨push_literal_ok, push_literal_escape, rfl⟩

theorem push_literal_collapses_doubled_braces_witness :
    push_literal [] [rbrace, rbrace, 'q', lbrace, lbrace] =
      .ok [.Literal [rbrace, 'q', lbrace]] ∧
    [Fragment.Literal [rbrace, 'q', lbrace]] =
      [] ++ [.Literal (collapseDouble rbrace (collapseDouble lbrace
        [rbrace, rbrace, 'q', lbrace, lbrace]))] :=
  ⟨rfl, push_literal_collapses_doubled_braces.1 [] [rbrace, rbrace, 'q', lbrace, lbrace]
    [.Literal [rbrace, 'q', lbrace]] rfl⟩

theorem parseLoop_step (st st2 : ParseState) (c : Char) (s : List Char)
    (h : stepChar st c = .ok st2) : parseLoop st (c :: s) = parseLoop st2 s := by
  simp [parseLoop, h]

theorem parseLoop_lit_open (pending : List Char) (acc : List Fragment) (s : List Char) :
    parseLoop ⟨pending, .literal, acc⟩ (lbrace :: s) = parseLoop ⟨pending, .afterOpen, acc⟩ s :=
  parseLoop_step _ _ _ _ (by simp [stepChar])

theorem parseLoop_lit_other (c : Char) (hc : ¬ c = lbrace) (pending : List Char)
    (acc : List Fragment) (s : List Char) :
    parseLoop ⟨pending, .literal, acc⟩ (c :: s) =
      parseLoop ⟨pending ++ [c], .literal, acc⟩ s :=
  parseLoop_step _ _ _ _ (by simp [stepChar, hc])

theorem parseLoop_afterOpen_open (pending : List Char) (acc : List Fragment) (s : List Char) :
    parseLoop ⟨pending, .afterOpen, acc⟩ (lbrace :: s) =
      parseLoop ⟨pending ++ [lbrace, lbrace], .literal, acc⟩ s :=
  parseLoop_step _ _ _ _ (by simp [stepChar])

theorem parseLoop_afterOpen_close (pending : List Char) (acc acc2 : List Fragment)
    (s : List Char) (hflush : flushLiteral acc pending = .ok acc2) :
    parseLoop ⟨pending, .afterOpen, acc⟩ (rbrace :: s) =
      parseLoop ⟨[], .literal, acc2 ++ [.Parameter ⟨.Default⟩]⟩ s :=
  parseLoop_step _ _ _ _
    (by simp [stepChar, hflush, (by decide : ¬ rbrace = lbrace),
      show parse_param [] = Except.ok ⟨DisplayHint.Default⟩ from rfl])

theorem parseLoop_afterOpen_enter (c : Char) (hc1 : ¬ c = lbrace) (hc2 : ¬ c = rbrace)
    (pending : List Char) (acc acc2 : List Fragment) (s : List Char)
    (hflush : flushLiteral acc pending = .ok acc2) :
    parseLoop ⟨pending, .afterOpen, acc⟩ (c :: s) =
      parseLoop ⟨[], .inParam [c], acc2⟩ s :=
  parseLoop_step _ _ _ _ (by simp [stepChar, hflush, hc1, hc2])

theorem parseLoop_inParam_char (body : List Char) (c : Char) (hc : ¬ c = rbrace)
    (pending : List Char) (acc : List Fragment) (s : List Char) :
    parseLoop ⟨pending, .inParam body, acc⟩ (c :: s) =
      parseLoop ⟨pending, .inParam (body ++ [c]), acc⟩ s :=
  parseLoop_step _ _ _ _ (by simp [stepChar, hc])

theorem parseLoop_inParam_close (body : List Char) (p : Parameter)
    (hp : parse_param body = .ok p) (pending : List Char) (acc : List Fragment)
    (s : List Char) :
    parseLoop ⟨pending, .inParam body, acc⟩ (rbrace :: s) =
      parseLoop ⟨pending, .literal, acc ++ [.Parameter p]⟩ s :=
  parseLoop_step _ _ _ _ (by simp [stepChar, hp])

/-- All characters of an escaped literal are consumed into the pending
    span (doubled braces via the escape path, everything else directly). -/
theorem parseLoop_escape (l pending : List Char) (acc : List Fragment) (s : List Char) :
    parseLoop ⟨pending, .literal, acc⟩ (escapeLit l ++ s) =
      parseLoop ⟨pending ++ escapeLit l, .literal, acc⟩ s := by
  induction l generalizing pending with
  | nil => simp [escapeLit]
  | cons c rest ih =>
    by_cases h1 : c = lbrace
    · subst h1
      rw [show escapeLit (lbrace :: rest) = lbrace :: lbrace :: escapeLit rest by
        rw [escapeLit, if_pos (Or.inl rfl)]]
      rw [List.cons_append, List.cons_append, parseLoop_lit_open, parseLoop_afterOpen_open,
        ih (pending ++ [lbrace, lbrace])]
      simp
    · by_cases h2 : c = rbrace
      · subst h2
        rw [show escapeLit (rbrace :: rest) = rbrace :: rbrace :: escapeLit rest by
          rw [escapeLit, if_pos (Or.inr rfl)]]
        rw [List.cons_append, List.cons_append, parseLoop_lit_other rbrace (by decide),
          parseLoop_lit_other rbrace (by decide), ih ((pending ++ [rbrace]) ++ [rbrace])]
        simp
      · rw [show escapeLit (c :: rest) = c :: escapeLit rest by
          rw [escapeLit, if_neg (by simp [h1, h2])]]
        rw [List.cons_append, parseLoop_lit_other c h1, ih (pending ++ [c])]
        simp

/-- Consuming one rendered placeholder: flush the pending literal, read
    the canonical hint body, emit the parameter. -/
theorem parseLoop_param (h : DisplayHint) (pending : List Char) (acc acc2 : List Fragment)
    (s : List Char) (hflush : flushLiteral acc pending = .ok acc2) :
    parseLoop ⟨pending, .literal, acc⟩ (lbrace :: (hintChars h ++ (rbrace :: s))) =
      parseLoop ⟨[], .literal, acc2 ++ [.Parameter ⟨h⟩]⟩ s := by
  cases h with
  | Default =>
    rw [parseLoop_lit_open]
    rw [show hintChars DisplayHint.Default ++ (rbrace :: s) = rbrace :: s from rfl]
    rw [parseLoop_afterOpen_close pending acc acc2 s hflush]
  | LowerHex =>
    rw [parseLoop_lit_open]
    simp only [hintChars, List.cons_append, List.nil_append]
    rw [parseLoop_afterOpen_enter ':' (by decide) (by decide) pending acc acc2 _ hflush,
      parseLoop_inParam_char [':'] 'x' (by decide),
      parseLoop_inParam_close ([':'] ++ ['x']) ⟨.LowerHex⟩ rfl]
  | UpperHex =>
    rw [parseLoop_lit_open]
    simp only [hintChars, List.cons_append, List.nil_append]
    rw [parseLoop_afterOpen_enter ':' (by decide) (by decide) pending acc acc2 _ hflush,
      parseLoop_inParam_char [':'] 'X' (by decide),
      parseLoop_inParam_close ([':'] ++ ['X']) ⟨.UpperHex⟩ rfl]
  | IPv4 =>
    rw [parseLoop_lit_open]
    simp only [hintChars, List.cons_append, List.nil_append]
    rw [parseLoop_afterOpen_enter ':' (by decide) (by decide) pending acc acc2 _ hflush,
      parseLoop_inParam_char [':'] 'i' (by decide),
      parseLoop_inParam_char ([':'] ++ ['i']) 'p' (by decide),
      parseLoop_inParam_char (([':'] ++ ['i']) ++ ['p']) 'v' (by decide),
      parseLoop_inParam_char ((([':'] ++ ['i']) ++ ['p']) ++ ['v']) '4' (by decide),
      parseLoop_inParam_close (((([':'] ++ ['i']) ++ ['p']) ++ ['v']) ++ ['4']) ⟨.IPv4⟩ rfl]
  | IPv6 =>
    rw [parseLoop_lit_open]
    simp only [hintChars, List.cons_append, List.nil_append]
    rw [parseLoop_afterOpen_enter ':' (by decide) (by decide) pending acc acc2 _ hflush,
      parseLoop_inParam_char [':'] 'i' (by decide),
      parseLoop_inParam_char ([':'] ++ ['i']) 'p' (by decide),
      parseLoop_inParam_char (([':'] ++ ['i']) ++ ['p']) 'v' (by decide),
      parseLoop_inParam_char ((([':'] ++ ['i']) ++ ['p']) ++ ['v']) '6' (by decide),
      parseLoop_inParam_close (((([':'] ++ ['i']) ++ ['p']) ++ ['v']) ++ ['6']) ⟨.IPv6⟩ rfl]

theorem litsNonempty_cons_lit (l : List Char) (rest : List Fragment)
    (h : litsNonempty (.Literal l :: rest) = true) : l ≠ [] ∧ litsNonempty rest = true := by
  simp only [litsNonempty, List.all_cons, Bool.and_eq_true] at h
  refine ⟨?_, h.2⟩
  have h1 := h.1
  intro hnil
  subst hnil
  simp at h1

theorem litsNonempty_cons_param (p : Parameter) (rest : List Fragment)
    (h : litsNonempty (.Parameter p :: rest) = true) : litsNonempty rest = true := by
  simp only [litsNonempty, List.all_cons, Bool.and_eq_true] at h
  exact h.2

theorem noAdjLits_cons_lit_head (l : List Char) (rest : List Fragment)
    (h : noAdjLits (.Literal l :: rest) = true) : headNotLit rest = true := by
  cases rest with
  | nil => rfl
  | cons b r2 =>
    rw [noAdjLits, Bool.and_eq_true] at h
    have h1 := h.1
    cases b with
    | Literal l2 => simp [isLit] at h1
    | Parameter p => rfl

/-- Re-parsing the rendered form of any well-shaped fragment list (no
    empty literals, no adjacent literals) reproduces it, relative to any
    accumulator and optionally with a pending escaped literal in front. -/
theorem unparse_roundtrip_aux (fs : List Fragment)
    (hl : litsNonempty fs = true) (ha : noAdjLits fs = true) :
    (∀ acc, parseLoop ⟨[], .literal, acc⟩ (unparse fs) = .ok (acc ++ fs)) ∧
    (∀ acc (l : List Char), l ≠ [] → headNotLit fs = true →
      parseLoop ⟨escapeLit l, .literal, acc⟩ (unparse fs) = .ok (acc ++ .Literal l :: fs)) := by
  induction fs with
  | nil =>
    constructor
    · intro acc
      simp [unparse, parseLoop, finalize, flushLiteral]
    · intro acc l hlne _
      have hie := isEmpty_false_of_ne_nil _ (escapeLit_ne_nil l hlne)
      simp [unparse, parseLoop, finalize, flushLiteral, hie, push_literal_escape]
  | cons f rest ih =>
    cases f with
    | Literal l =>
      obtain ⟨hlne, hlr⟩ := litsNonempty_cons_lit l rest hl
      have har := noAdjLits_tail _ _ ha
      have hhead := noAdjLits_cons_lit_head l rest ha
      obtain ⟨ihA, ihB⟩ := ih hlr har
      constructor
      · intro acc
        rw [show unparse (.Literal l :: rest) = escapeLit l ++ unparse rest from rfl,
          parseLoop_escape l [] acc (unparse rest),
          show ([] : List Char) ++ escapeLit l = escapeLit l from rfl]
        exact ihB acc l hlne hhead
      · intro acc l2 hl2 hh2
        simp [headNotLit] at hh2
    | Parameter p =>
      obtain ⟨hint⟩ := p
      have hlr := litsNonempty_cons_param _ rest hl
      have har := noAdjLits_tail _ _ ha
      obtain ⟨ihA, ihB⟩ := ih hlr har
      have hop : unparse (.Parameter ⟨hint⟩ :: rest)
          = lbrace :: (hintChars hint ++ (rbrace :: unparse rest)) := by
        simp [unparse, unparseFrag, List.append_assoc]
      constructor
      · intro acc
        rw [hop, parseLoop_param hint [] acc acc (unparse rest) rfl, ihA]
        simp
      · intro acc l hlne _
        have hie := isEmpty_false_of_ne_nil _ (escapeLit_ne_nil l hlne)
        have hflush : flushLiteral acc (escapeLit l) = .ok (acc ++ [.Literal l]) := by
          rw [flushLiteral, if_neg (by simp [hie]), push_literal_escape]
        rw [hop, parseLoop_param hint (escapeLit l) acc (acc ++ [.Literal l])
          (unparse rest) hflush, ihA]
        simp

/-- C4: for every template accepted by `parse`, rendering the fragments
    back to a template (literals re-escaped, placeholders as their brace
    form) and re-parsing yields exactly the same fragment sequence. -/
theorem parse_unparse_roundtrip (s : List Char) (fs : List Fragment)
    (h : parse s = .ok fs) : parse (unparse fs) = .ok fs := by
  obtain ⟨hl, ha⟩ := parseLoop_inv s ⟨[], .literal, []⟩ fs ⟨rfl, rfl, rfl⟩ h
  have hmain := (unparse_roundtrip_aux fs hl ha).1 []
  simpa [parse] using hmain

theorem parse_unparse_roundtrip_witness :
    (parse ("x ".toList ++ [lbrace, ':', 'x', rbrace] ++ [rbrace, rbrace]) =
      .ok [.Literal "x ".toList, .Parameter ⟨.LowerHex⟩, .Literal [rbrace]]) ∧
    parse (unparse [.Literal "x ".toList, .Parameter ⟨.LowerHex⟩, .Literal [rbrace]]) =
      .ok [.Literal "x ".toList, .Parameter ⟨.LowerHex⟩, .Literal [rbrace]] :=
  ⟨rfl, parse_unparse_roundtrip ("x ".toList ++ [lbrace, ':', 'x', rbrace] ++ [rbrace, rbrace])
    _ rfl⟩
